import Mathlib

/-!
Verification development for the protobuf codegen front end.

The configuration/builder object `Codegen` and the helper
`remove_path_prefix` are embedded from
`src/protobuf-codegen/src/codegen/mod.rs`.  The pure compilation
pipeline (lexer, parser, import resolver, symbol binder, validator,
descriptor builder) is declared in that file only as the modules
`protoc` and `pure`; its behaviour is modelled from the specification
where a claim needs it, with each such definition marked
`Modelled from the spec`.

Paths are embedded as their component lists (`List String`), matching
the component-wise semantics of `std::path::Path` operations used by
the source (`strip_prefix`, `push`).
-/

/-- A filesystem path, as its list of components. -/
abbrev FsPath : Type := List String

/-- Embeds `enum WhichParser` from `codegen/mod.rs`. -/
inductive WhichParser where
  | Pure
  | Protoc
deriving DecidableEq, Repr

/-- Embeds `impl Default for WhichParser`: the default is `Protoc`. -/
def WhichParser.default : WhichParser := WhichParser.Protoc

/-- Code-generation customization options; its contents are irrelevant
to the claims, embedded as an opaque record with a default value. -/
structure Customize where
  options : List (String × String) := []
deriving DecidableEq, Repr

/-- Embeds `Protoc` (the external compiler handle), which the source
builds from a command path via `Protoc::from_path`. -/
structure Protoc where
  path : FsPath
deriving BEq, Repr

/-- Embeds `struct Codegen` from `codegen/mod.rs`.  The field
`which_parser` is spelled `whichParser` here. -/
structure Codegen where
  whichParser : WhichParser := WhichParser.default
  out_dir : FsPath := []
  includes : List FsPath := []
  inputs : List FsPath := []
  customize : Customize := {}
  protoc : Option Protoc := none
  extra_args : List String := []

/-- Embeds `Codegen::new`, which is `Self::default()`:
every field takes its `Default` value. -/
def Codegen.new : Codegen := {}

/-- Embeds `Codegen::pure`: switch to the pure Rust parser. -/
def Codegen.pure (c : Codegen) : Codegen :=
  { c with whichParser := WhichParser.Pure }

/-- Embeds `Codegen::protoc` (the mode switch; named `protocMode` here
because the field `protoc` takes the source name): switch to the
external `protoc` binary. -/
def Codegen.protocMode (c : Codegen) : Codegen :=
  { c with whichParser := WhichParser.Protoc }

/-- Embeds `Codegen::out_dir` (named `outDir` here because the field
takes the source name). -/
def Codegen.outDir (c : Codegen) (d : FsPath) : Codegen :=
  { c with out_dir := d }

/-- Embeds `Codegen::include`: push one include directory. -/
def Codegen.include (c : Codegen) (d : FsPath) : Codegen :=
  { c with includes := c.includes ++ [d] }

/-- Embeds `Codegen::includes` (named `includesIter` here because the
field takes the source name): `self.include(d)` for each element of
the iterator, in iteration order. -/
def Codegen.includesIter (c : Codegen) (ds : List FsPath) : Codegen :=
  ds.foldl Codegen.include c

/-- Embeds `Codegen::input`: push one input file. -/
def Codegen.input (c : Codegen) (f : FsPath) : Codegen :=
  { c with inputs := c.inputs ++ [f] }

/-- Embeds `Codegen::inputs` (named `inputsIter` here because the field
takes the source name): `self.input(f)` for each element of the
iterator, in iteration order. -/
def Codegen.inputsIter (c : Codegen) (fs : List FsPath) : Codegen :=
  fs.foldl Codegen.input c

/-- Embeds `Codegen::protoc_path`. -/
def Codegen.protocPath (c : Codegen) (p : FsPath) : Codegen :=
  { c with protoc := some (Protoc.mk p) }

/-- Embeds `Codegen::customize` (named `setCustomize` here because the
field takes the source name). -/
def Codegen.setCustomize (c : Codegen) (k : Customize) : Codegen :=
  { c with customize := k }

/-- Embeds `Codegen::extra_arg`. -/
def Codegen.extra_arg (c : Codegen) (a : String) : Codegen :=
  { c with extra_args := c.extra_args ++ [a] }

/-- The resolved descriptor of one file: its canonical name and the
names of the files it imports.  Only what the claims inspect is kept. -/
structure FileDescriptor where
  name : String
  dependencies : List String
deriving DecidableEq, Repr

/-- Embeds `ParsedAndTypechecked` as `Codegen::run` consumes it:
the descriptor list and the input files' relative paths. -/
structure ParsedAndTypechecked where
  file_descriptors : List FileDescriptor
  relative_paths : List FsPath

/-- The type of the two `parse_and_typecheck` entry points
(`protoc::parse_and_typecheck`, `pure::parse_and_typecheck`): given the
configured object, they fail or return the parsed model together with
the parser name handed on to `gen_and_write`. -/
def ParseFn : Type := Codegen → Except String (ParsedAndTypechecked × String)

/-- The type of `gen_and_write`: descriptors, parser name, relative
paths, output directory and customization. -/
def GenFn : Type :=
  List FileDescriptor → String → List FsPath → FsPath → Customize → Except String Unit

/-- The `match self.which_parser` expression inside `Codegen::run`:
select which parse path runs. -/
def selectParse (protocParse pureParse : ParseFn) (c : Codegen) :
    Except String (ParsedAndTypechecked × String) :=
  match c.whichParser with
  | WhichParser.Protoc => protocParse c
  | WhichParser.Pure => pureParse c

/-- Embeds `Codegen::run`, parameterized by the two parse entry points
and by `gen_and_write`, whose bodies live outside `codegen/mod.rs`:
the selected parse path runs first and `?`-propagates its error;
on success its whole result feeds one `gen_and_write` call. -/
def Codegen.run (protocParse pureParse : ParseFn) (gen : GenFn) (c : Codegen) :
    Except String Unit :=
  match selectParse protocParse pureParse c with
  | Except.error e => Except.error e
  | Except.ok (pt, p) =>
      gen pt.file_descriptors p pt.relative_paths c.out_dir c.customize

/-- Embeds `strip_prefix(".").unwrap_or(path)`: drop a single leading
`.` component when present, otherwise leave the path unchanged. -/
def stripDotOnce (p : List String) : List String :=
  match p with
  | a :: rest => if a = "." then rest else p
  | [] => p

/-- Embeds `remove_path_prefix` from `codegen/mod.rs`: normalize both
arguments by dropping one leading `.` component, then strip the prefix
component-wise, `none` when it is not a prefix. -/
def remove_path_prefix (path pre : List String) : Option (List String) :=
  if (stripDotOnce pre).isPrefixOf (stripDotOnce path) then
    some ((stripDotOnce path).drop (stripDotOnce pre).length)
  else none

/-- Modelled from the spec: the Validator's field-number check.
Source of the check (the `pure` validator module) is outside
`codegen/mod.rs`.  A field number is accepted when it lies in
`[1, 2^29-1]`, is outside the reserved band `[19000, 19999]`, is
outside every declared reserved range, and does not duplicate an
already declared number. -/
def fieldNumberValid (reserved : List (Nat × Nat)) (declared : List Nat) (n : Nat) : Bool :=
  decide (1 ≤ n) && decide (n ≤ 2 ^ 29 - 1) &&
  !(decide (19000 ≤ n) && decide (n ≤ 19999)) &&
  !(reserved.any fun r => decide (r.1 ≤ n) && decide (n ≤ r.2)) &&
  !(declared.contains n)

/-- Modelled from the spec: the Import Resolver's directory search
(the resolver module is outside `codegen/mod.rs`).  `fsHas d f` is the
filesystem oracle: directory `d` contains a file named `f`.  The
resolver tries the include directories in declared order and returns
the first that contains the import. -/
def resolveImport (fsHas : FsPath → String → Bool) (includes : List FsPath)
    (imp : String) : Option FsPath :=
  includes.find? fun d => fsHas d imp

/-- Modelled from the spec: an input path is reported relative to its
resolving include directory — the first include directory that is a
component-wise prefix of it, stripped off with `remove_path_prefix`. -/
def relativeToIncludes (includes : List FsPath) (input : FsPath) : Option FsPath :=
  includes.findSome? fun d => remove_path_prefix input d

/-- Import errors of the resolver, from the spec's taxonomy (the
`path_sequence` payload of `Cycle` is omitted). -/
inductive ImportError where
  | NotFound
  | Cycle
deriving DecidableEq, Repr

/-- A dependency-graph edge: importer paired with imported file. -/
abbrev Edge := String × String

/-- Bounded reachability in an edge list: `reachN fuel es a b` holds
when some path of at most `fuel` edges of `es` leads from `a` to `b`. -/
def reachN : Nat → List Edge → String → String → Bool
  | 0, _, a, b => a == b
  | fuel + 1, es, a, b =>
      a == b || es.any fun e => e.1 == a && reachN fuel es e.2 b

/-- Modelled from the spec: the resolver builds the dependency graph
incrementally and fails with `ImportError.Cycle` when closing an edge
would create a cycle, i.e. when the edge's head already reaches its
tail through the edges added so far. -/
def addEdge (es : List Edge) (e : Edge) : Except ImportError (List Edge) :=
  if reachN es.length es e.2 e.1 then Except.error ImportError.Cycle
  else Except.ok (e :: es)

/-- Add a list of edges in order, failing at the first edge that would
close a cycle. -/
def addEdges (start : List Edge) (new : List Edge) : Except ImportError (List Edge) :=
  new.foldlM addEdge start

/-- The edges contributed by a list of input files, in list order:
each file is an importer of each of its imports. -/
def importEdges (imports : String → List String) (files : List String) : List Edge :=
  files.flatMap fun f => (imports f).map fun g => (f, g)

/-- Modelled from the spec: dependency-graph construction for a
compilation — insert every import edge of every input file, in input
order, with incremental cycle detection. -/
def buildDepGraph (imports : String → List String) (files : List String) :
    Except ImportError (List Edge) :=
  addEdges [] (importEdges imports files)

/-- A chain of edges from `a` to `b`: consecutive edges share their
endpoint, the first starts at `a`, the last ends at `b`. -/
def chainB : List Edge → String → String → Prop
  | [], a, b => a = b
  | e :: p, a, b => e.1 = a ∧ chainB p e.2 b

/-- Decision procedure for `chainB`. -/
def chainBDec : (p : List Edge) → (a b : String) → Decidable (chainB p a b)
  | [], a, b => inferInstanceAs (Decidable (a = b))
  | e :: p, a, b =>
      haveI := chainBDec p e.2 b
      inferInstanceAs (Decidable (e.1 = a ∧ chainB p e.2 b))

instance (p : List Edge) (a b : String) : Decidable (chainB p a b) := chainBDec p a b

/-- A file is ready to be emitted when none of its imports is still
pending. -/
def ready (imports : String → List String) (pending : List String) (f : String) : Bool :=
  (imports f).all fun g => !(pending.contains g)

/-- Modelled from the spec: the Descriptor Builder orders the output
file list in dependency order.  Repeatedly emit the first pending file
none of whose imports is still pending; when no file is ready although
some are pending, the graph is cyclic. -/
def topoSort (imports : String → List String) :
    Nat → List String → List String → Except ImportError (List String)
  | 0, emitted, pending =>
      if pending.isEmpty then Except.ok emitted.reverse
      else Except.error ImportError.Cycle
  | fuel + 1, emitted, pending =>
      match pending.find? (ready imports pending) with
      | none =>
          if pending.isEmpty then Except.ok emitted.reverse
          else Except.error ImportError.Cycle
      | some f => topoSort imports fuel (f :: emitted) (pending.erase f)

/-- Modelled from the spec: the dependency-ordered output file list of
a compilation whose closure is `closure`. -/
def depOrder (imports : String → List String) (closure : List String) :
    Except ImportError (List String) :=
  topoSort imports closure.length [] closure

/-- One file directly imports another. -/
def imp (imports : String → List String) (x y : String) : Prop :=
  y ∈ imports x

/-- Field labels of the descriptor model. -/
inductive Label where
  | optional
  | required
  | repeated
deriving DecidableEq, Repr

/-- Field types of the descriptor model (scalars that the claims use,
message references by name, and the surface `map` type). -/
inductive FieldType where
  | TYPE_INT32
  | TYPE_INT64
  | TYPE_BOOL
  | TYPE_STRING
  | message (name : String)
  | map (key value : FieldType)
deriving DecidableEq, Repr

/-- A field of a message. -/
structure FieldNode where
  name : String
  number : Nat
  typ : FieldType
  label : Label
deriving DecidableEq, Repr

/-- A message: name, fields, nested messages, and whether it is a
compiler-generated (synthetic) message. -/
inductive MessageNode where
  | mk (name : String) (fields : List FieldNode) (nested : List MessageNode)
      (synthetic : Bool)

/-- Name of a message. -/
def MessageNode.name : MessageNode → String
  | MessageNode.mk n _ _ _ => n

/-- Fields of a message. -/
def MessageNode.fields : MessageNode → List FieldNode
  | MessageNode.mk _ fs _ _ => fs

/-- Nested messages of a message. -/
def MessageNode.nested : MessageNode → List MessageNode
  | MessageNode.mk _ _ ns _ => ns

/-- Whether a message is compiler-generated. -/
def MessageNode.synthetic : MessageNode → Bool
  | MessageNode.mk _ _ _ s => s

/-- Modelled from the spec: the deterministic name of the synthetic
map-entry message derived from the map field's name. -/
def mapEntryName (fieldName : String) : String :=
  fieldName.capitalize ++ "Entry"

/-- Modelled from the spec: the Descriptor Builder's lowering of one
field.  A `map<K, V>` field becomes a repeated field of a synthetic
nested message holding `key` (number 1) and `value` (number 2); every
other field is unchanged and contributes no synthetic message. -/
def lowerField (f : FieldNode) : FieldNode × List MessageNode :=
  match f.typ with
  | FieldType.map k v =>
      ({ f with typ := FieldType.message (mapEntryName f.name),
                label := Label.repeated },
       [MessageNode.mk (mapEntryName f.name)
          [⟨"key", 1, k, Label.optional⟩, ⟨"value", 2, v, Label.optional⟩]
          [] true])
  | _ => (f, [])

/-- Lower every field of a message, collecting the synthetic map-entry
messages produced along the way. -/
def lowerFields (fields : List FieldNode) : List FieldNode × List MessageNode :=
  fields.foldr
    (fun f acc =>
      let r := lowerField f
      (r.1 :: acc.1, r.2 ++ acc.2))
    ([], [])

/-- The user-declared symbols among a list of nested messages: the
names of the non-synthetic ones.  Synthetic map-entry messages are
never user-visible. -/
def userDeclaredNested (ms : List MessageNode) : List String :=
  (ms.filter fun m => !m.synthetic).map MessageNode.name

/-- A bound symbol: its fully qualified name. -/
structure BoundSymbol where
  fqName : String
deriving DecidableEq, Repr

/-- A scope of the binder's arena: the enclosing scope's index (a
well-formed arena only points to smaller indices) and the symbols the
scope declares, in declaration order. -/
structure Scope where
  parent : Option Nat
  symbols : List (String × BoundSymbol)
deriving DecidableEq, Repr

/-- Modelled from the spec: the Symbol Binder's relative name lookup.
Search outward from the scope at index `i`: the first enclosing scope
declaring the name wins; a parent pointer that does not decrease the
index is treated as dangling. -/
def resolveFrom (scopes : List Scope) (i : Nat) (name : String) : Option BoundSymbol :=
  match scopes.get? i with
  | none => none
  | some s =>
      match s.symbols.lookup name with
      | some sym => some sym
      | none =>
          match s.parent with
          | some p => if _ : p < i then resolveFrom scopes p name else none
          | none => none
termination_by i


/-- A one-scope arena declaring siblings `A` then `B`. -/
def scopesAB : List Scope :=
  [⟨none, [("A", ⟨".A"⟩), ("B", ⟨".B"⟩)]⟩]

/-- The same arena with the sibling declarations reordered. -/
def scopesBA : List Scope :=
  [⟨none, [("B", ⟨".B"⟩), ("A", ⟨".A"⟩)]⟩]


/-- A two-file import relation forming a cycle, used by witnesses. -/
def cycImports : String → List String :=
  fun f => if f = "a" then ["b"] else if f = "b" then ["a"] else []


/-- A linear two-file import relation: `b` imports `a`. -/
def linImports : String → List String :=
  fun f => if f = "b" then ["a"] else []

/-! ## Theorems -/

/-- C9: a freshly constructed `Codegen` defaults to the `Protoc`
parser, so `run` takes the external-binary path by default; the pure
pipeline is selected only after `pure`, and `protocMode` switches
back. -/
theorem new_defaults_to_protoc :
    Codegen.new.whichParser = WhichParser.Protoc ∧
    WhichParser.default = WhichParser.Protoc ∧
    (∀ c : Codegen, (Codegen.pure c).whichParser = WhichParser.Pure) ∧
    (∀ c : Codegen, (Codegen.protocMode c).whichParser = WhichParser.Protoc) ∧
    (∀ pp qp : ParseFn, selectParse pp qp Codegen.new = pp Codegen.new) ∧
    (∀ (pp qp : ParseFn) (c : Codegen),
      selectParse pp qp (Codegen.pure c) = qp (Codegen.pure c)) :=
  ⟨rfl, rfl, fun _ => rfl, fun _ => rfl, fun _ _ => rfl, fun _ _ _ => rfl⟩

/-- C10: `remove_path_prefix` first drops a single leading `.`
component from each argument (leaving it unchanged when absent), then
returns the remaining components exactly when the normalized second
argument is a component-wise prefix of the normalized first, and
`none` otherwise; being a total function, it never panics. -/
theorem remove_path_prefix_spec (path pre s : List String) :
    (stripDotOnce ("." :: path) = path) ∧
    (path.head? ≠ some "." → stripDotOnce path = path) ∧
    ( remove_path_prefix path pre = some s ↔
        stripDotOnce pre <+: stripDotOnce path ∧
        s = (stripDotOnce path).drop (stripDotOnce pre).length) ∧
    ( remove_path_prefix path pre = none ↔
        ¬ stripDotOnce pre <+: stripDotOnce path) := by
  refine ⟨by simp [stripDotOnce], ?_, ?_, ?_⟩
  · intro h
    cases path with
    | nil => rfl
    | cons a t =>
        have ha : a ≠ "." := by
          intro hcon
          exact h (by simp [hcon])
        simp [stripDotOnce, ha]
  · unfold remove_path_prefix
    by_cases hp : (stripDotOnce pre).isPrefixOf (stripDotOnce path) = true
    · have hp' := List.isPrefixOf_iff_prefix.mp hp
      simp only [hp, if_true]
      constructor
      · intro h
        exact ⟨hp', (Option.some.inj h).symm⟩
      · rintro ⟨-, rfl⟩
        rfl
    · have hp' : ¬ stripDotOnce pre <+: stripDotOnce path := fun hcon =>
        hp (List.isPrefixOf_iff_prefix.mpr hcon)
      simp [hp, hp']
  · unfold remove_path_prefix
    by_cases hp : (stripDotOnce pre).isPrefixOf (stripDotOnce path) = true
    · have hp' := List.isPrefixOf_iff_prefix.mp hp
      simp [hp, hp']
    · have hp' : ¬ stripDotOnce pre <+: stripDotOnce path := fun hcon =>
        hp (List.isPrefixOf_iff_prefix.mpr hcon)
      simp [hp, hp']

/-- Witness for C10 at a concrete input mirroring the source's own
test: stripping `xxx` from `xxx/abc.proto` yields `abc.proto`. -/
theorem remove_path_prefix_spec_witness :
    remove_path_prefix ["xxx", "abc.proto"] ["xxx"] = some ["abc.proto"] :=
  (remove_path_prefix_spec ["xxx", "abc.proto"] ["xxx"] ["abc.proto"]).2.2.1.mpr
    (by refine ⟨⟨["abc.proto"], ?_⟩, ?_⟩ <;> decide)

/-- C1: `Codegen.run` either completes the whole pipeline — the
selected `parse_and_typecheck` succeeds and its full result is handed
to one `gen_and_write` call that also succeeds — or it propagates the
parse error without invoking the code generator at all: on a parse
error the outcome is the same error for every generator function. -/
theorem run_complete_or_error (pp qp : ParseFn) (gen : GenFn) (c : Codegen) :
    (Codegen.run pp qp gen c = Except.ok () →
      ∃ pt ps, selectParse pp qp c = Except.ok (pt, ps) ∧
        gen pt.file_descriptors ps pt.relative_paths c.out_dir c.customize =
          Except.ok ()) ∧
    (∀ e, selectParse pp qp c = Except.error e →
      ∀ gen2 : GenFn, Codegen.run pp qp gen2 c = Except.error e) := by
  constructor
  · intro h
    unfold Codegen.run at h
    cases hsel : selectParse pp qp c with
    | error e => rw [hsel] at h; exact absurd h (by simp)
    | ok x =>
        rw [hsel] at h
        exact ⟨x.1, x.2, rfl, h⟩
  · intro e he gen2
    unfold Codegen.run
    rw [he]

/-- Witness for C1: with a failing parse path, `run` reports that very
error even though the generator function would succeed. -/
theorem run_complete_or_error_witness :
    Codegen.run (fun _ => Except.error "e0") (fun _ => Except.error "e0")
      (fun _ _ _ _ _ => Except.ok ()) Codegen.new = Except.error "e0" :=
  (run_complete_or_error (fun _ => Except.error "e0") (fun _ => Except.error "e0")
      (fun _ _ _ _ _ => Except.ok ()) Codegen.new).2 "e0" rfl _

/-- C5: `run` invokes exactly the parse path selected by
`whichParser` — under `Protoc` the external-binary entry point is used
and the result does not depend on the pure pipeline at all, under
`Pure` symmetrically — and either way the parse result feeds the same
single `gen_and_write` call. -/
theorem run_uses_selected_path (pp pp2 qp qp2 : ParseFn) (gen : GenFn) (c : Codegen) :
    (c.whichParser = WhichParser.Protoc →
      selectParse pp qp c = pp c ∧
      Codegen.run pp qp gen c = Codegen.run pp qp2 gen c) ∧
    (c.whichParser = WhichParser.Pure →
      selectParse pp qp c = qp c ∧
      Codegen.run pp qp gen c = Codegen.run pp2 qp gen c) ∧
    Codegen.run pp qp gen c =
      (match selectParse pp qp c with
       | Except.error e => Except.error e
       | Except.ok x =>
           gen x.1.file_descriptors x.2 x.1.relative_paths c.out_dir c.customize) := by
  refine ⟨fun h => ⟨by simp [selectParse, h], ?_⟩,
          fun h => ⟨by simp [selectParse, h], ?_⟩, ?_⟩
  · unfold Codegen.run
    simp [selectParse, h]
  · unfold Codegen.run
    simp [selectParse, h]
  · unfold Codegen.run
    cases hsel : selectParse pp qp c with
    | error e => rfl
    | ok x => rfl

/-- Witness for C5: on the default (`Protoc`) configuration the
selected path is the external-binary one. -/
theorem run_uses_selected_path_witness :
    selectParse (fun _ => Except.error "a") (fun _ => Except.error "b")
      Codegen.new = Except.error "a" :=
  ((run_uses_selected_path (fun _ => Except.error "a") (fun _ => Except.error "c")
      (fun _ => Except.error "b") (fun _ => Except.error "d")
      (fun _ _ _ _ _ => Except.ok ()) Codegen.new).1 rfl).1

/-- Acceptance characterization of the modelled field-number check. -/
theorem fieldNumberValid_iff (res : List (Nat × Nat)) (decl : List Nat) (n : Nat) :
    fieldNumberValid res decl n = true ↔
      (1 ≤ n ∧ n ≤ 2 ^ 29 - 1 ∧ ¬(19000 ≤ n ∧ n ≤ 19999) ∧
       (∀ r ∈ res, ¬(r.1 ≤ n ∧ n ≤ r.2)) ∧ n ∉ decl) := by
  simp [fieldNumberValid, List.any_eq_true, and_assoc]
  intro _ _ _ _
  omega

/-- C3: a field number in `[1, 2^29-1]`, outside the band
`[19000, 19999]` and outside every declared reserved range, is
accepted (absent a duplicate); a number inside the band or inside a
declared reserved range is always rejected. -/
theorem field_number_validation (res : List (Nat × Nat)) (decl : List Nat) (n : Nat) :
    (1 ≤ n → n ≤ 2 ^ 29 - 1 → ¬(19000 ≤ n ∧ n ≤ 19999) →
      (∀ r ∈ res, ¬(r.1 ≤ n ∧ n ≤ r.2)) → n ∉ decl →
      fieldNumberValid res decl n = true) ∧
    ((19000 ≤ n ∧ n ≤ 19999) → fieldNumberValid res decl n = false) ∧
    (∀ r ∈ res, r.1 ≤ n → n ≤ r.2 → fieldNumberValid res decl n = false) := by
  refine ⟨?_, ?_, ?_⟩
  · intro h1 h2 h3 h4 h5
    exact (fieldNumberValid_iff res decl n).mpr ⟨h1, h2, h3, h4, h5⟩
  · intro hband
    rcases h : fieldNumberValid res decl n with _ | _
    · rfl
    · exact absurd hband ((fieldNumberValid_iff res decl n).mp h).2.2.1
  · intro r hr hr1 hr2
    rcases h : fieldNumberValid res decl n with _ | _
    · rfl
    · exact absurd ⟨hr1, hr2⟩ (((fieldNumberValid_iff res decl n).mp h).2.2.2.1 r hr)

/-- Witness for C3: number 5 with no reserved ranges and no declared
numbers is accepted; number 19000 is rejected. -/
theorem field_number_validation_witness :
    fieldNumberValid [] [] 5 = true ∧ fieldNumberValid [] [] 19000 = false :=
  ⟨(field_number_validation [] [] 5).1 (by decide) (by decide) (by decide)
      (by simp) (by simp),
   (field_number_validation [] [] 19000).2.1 (by decide)⟩

/-- Order preservation of `includesIter`: the declared order of the
added directories is appended to the existing ones. -/
theorem includesIter_includes (c : Codegen) (ds : List FsPath) :
    (Codegen.includesIter c ds).includes = c.includes ++ ds := by
  induction ds generalizing c with
  | nil => simp [Codegen.includesIter]
  | cons d t ih =>
      have hstep : Codegen.includesIter c (d :: t) =
          Codegen.includesIter (Codegen.include c d) t := rfl
      rw [hstep, ih]
      simp [Codegen.include]

/-- Order preservation of `inputsIter`. -/
theorem inputsIter_inputs (c : Codegen) (fs : List FsPath) :
    (Codegen.inputsIter c fs).inputs = c.inputs ++ fs := by
  induction fs generalizing c with
  | nil => simp [Codegen.inputsIter]
  | cons f t ih =>
      have hstep : Codegen.inputsIter c (f :: t) =
          Codegen.inputsIter (Codegen.input c f) t := rfl
      rw [hstep, ih]
      simp [Codegen.input]

/-- The first element satisfying a predicate is found, whatever
follows it. -/
theorem find_first_match {α : Type} (p : α → Bool) (l1 l2 : List α) (d : α)
    (h1 : ∀ x ∈ l1, p x = false) (hd : p d = true) :
    List.find? p (l1 ++ d :: l2) = some d := by
  induction l1 with
  | nil => simp [List.find?_cons_of_pos, hd]
  | cons a t ih =>
      have ha := h1 a (List.mem_cons_self a t)
      rw [List.cons_append, List.find?_cons_of_neg _ (by simp [ha])]
      exact ih fun x hx => h1 x (List.mem_cons_of_mem a hx)

/-- C8: include directories (and inputs) keep their declared order;
adding via the iterator methods equals folding the single-element
methods in iteration order; and import resolution tries include
directories in declared order, so the first directory containing the
file wins any name collision. -/
theorem include_order_and_resolution (c : Codegen) (ds : List FsPath)
    (fsHas : FsPath → String → Bool) (impName : String)
    (l1 l2 : List FsPath) (d : FsPath) :
    (Codegen.includesIter c ds).includes = c.includes ++ ds ∧
    Codegen.includesIter c ds = List.foldl Codegen.include c ds ∧
    (Codegen.inputsIter c ds).inputs = c.inputs ++ ds ∧
    Codegen.inputsIter c ds = List.foldl Codegen.input c ds ∧
    ((∀ x ∈ l1, fsHas x impName = false) → fsHas d impName = true →
      resolveImport fsHas (l1 ++ d :: l2) impName = some d) := by
  refine ⟨includesIter_includes c ds, rfl, inputsIter_inputs c ds, rfl, ?_⟩
  intro h1 hd
  exact find_first_match _ l1 l2 d h1 hd

/-- Witness for C8: with the file present in both directories, the
earlier include directory wins. -/
theorem include_order_and_resolution_witness :
    resolveImport (fun dir nm => dir == ["a"] || dir == ["b"] || nm == "")
      ([["c"]] ++ ["a"] :: [["b"]]) "f.proto" = some ["a"] :=
  (include_order_and_resolution Codegen.new []
      (fun dir nm => dir == ["a"] || dir == ["b"] || nm == "") "f.proto"
      [["c"]] [["b"]] ["a"]).2.2.2.2 (by decide) (by decide)

/-- Unfolding `lowerFields` over a leading field. -/
theorem lowerFields_cons (f : FieldNode) (t : List FieldNode) :
    lowerFields (f :: t) =
      ((lowerField f).1 :: (lowerFields t).1,
       (lowerField f).2 ++ (lowerFields t).2) := rfl

/-- Lowering a message keeps every lowered field and every synthetic
message produced for it. -/
theorem lowerFields_mem (fields : List FieldNode) (f : FieldNode) (hf : f ∈ fields) :
    (lowerField f).1 ∈ (lowerFields fields).1 ∧
    ∀ m ∈ (lowerField f).2, m ∈ (lowerFields fields).2 := by
  induction fields with
  | nil => cases hf
  | cons a t ih =>
      rw [lowerFields_cons]
      rcases List.mem_cons.mp hf with rfl | hmem
      · exact ⟨List.mem_cons_self _ _, fun m hm => List.mem_append_left _ hm⟩
      · obtain ⟨ih1, ih2⟩ := ih hmem
        exact ⟨List.mem_cons_of_mem _ ih1,
               fun m hm => List.mem_append_right _ (ih2 m hm)⟩

/-- C6: a `map<string, int32>` field lowers to a repeated field of a
synthetic nested message holding exactly `key` (string, number 1) and
`value` (int32, number 2); the synthetic message accompanies the
message's lowered output and is never a user-declared symbol. -/
theorem map_field_lowering (nm : String) (num : Nat) (lbl : Label)
    (fields : List FieldNode)
    (hf : FieldNode.mk nm num
        (FieldType.map FieldType.TYPE_STRING FieldType.TYPE_INT32) lbl ∈ fields) :
    lowerField (FieldNode.mk nm num
        (FieldType.map FieldType.TYPE_STRING FieldType.TYPE_INT32) lbl) =
      (FieldNode.mk nm num (FieldType.message (mapEntryName nm)) Label.repeated,
       [MessageNode.mk (mapEntryName nm)
          [FieldNode.mk "key" 1 FieldType.TYPE_STRING Label.optional,
           FieldNode.mk "value" 2 FieldType.TYPE_INT32 Label.optional] [] true]) ∧
    FieldNode.mk nm num (FieldType.message (mapEntryName nm)) Label.repeated ∈
      (lowerFields fields).1 ∧
    MessageNode.mk (mapEntryName nm)
        [FieldNode.mk "key" 1 FieldType.TYPE_STRING Label.optional,
         FieldNode.mk "value" 2 FieldType.TYPE_INT32 Label.optional] [] true ∈
      (lowerFields fields).2 ∧
    userDeclaredNested
      [MessageNode.mk (mapEntryName nm)
        [FieldNode.mk "key" 1 FieldType.TYPE_STRING Label.optional,
         FieldNode.mk "value" 2 FieldType.TYPE_INT32 Label.optional] [] true] = [] := by
  have hm := lowerFields_mem fields _ hf
  exact ⟨rfl, hm.1, hm.2 _ (List.mem_singleton_self _), rfl⟩

/-- Witness for C6: the scenario field `map<string,int32> m = 1;`. -/
theorem map_field_lowering_witness :
    lowerField (FieldNode.mk "m" 1
        (FieldType.map FieldType.TYPE_STRING FieldType.TYPE_INT32) Label.optional) =
      (FieldNode.mk "m" 1 (FieldType.message (mapEntryName "m")) Label.repeated,
       [MessageNode.mk (mapEntryName "m")
          [FieldNode.mk "key" 1 FieldType.TYPE_STRING Label.optional,
           FieldNode.mk "value" 2 FieldType.TYPE_INT32 Label.optional] [] true]) ∧
    FieldNode.mk "m" 1 (FieldType.message (mapEntryName "m")) Label.repeated ∈
      (lowerFields [FieldNode.mk "m" 1
        (FieldType.map FieldType.TYPE_STRING FieldType.TYPE_INT32) Label.optional]).1 ∧
    MessageNode.mk (mapEntryName "m")
        [FieldNode.mk "key" 1 FieldType.TYPE_STRING Label.optional,
         FieldNode.mk "value" 2 FieldType.TYPE_INT32 Label.optional] [] true ∈
      (lowerFields [FieldNode.mk "m" 1
        (FieldType.map FieldType.TYPE_STRING FieldType.TYPE_INT32) Label.optional]).2 ∧
    userDeclaredNested
      [MessageNode.mk (mapEntryName "m")
        [FieldNode.mk "key" 1 FieldType.TYPE_STRING Label.optional,
         FieldNode.mk "value" 2 FieldType.TYPE_INT32 Label.optional] [] true] = [] :=
  map_field_lowering "m" 1 Label.optional
    [FieldNode.mk "m" 1
      (FieldType.map FieldType.TYPE_STRING FieldType.TYPE_INT32) Label.optional]
    (List.mem_singleton_self _)

/-- Association-list lookup is unchanged by permuting a
duplicate-free-keyed list. -/
theorem lookup_perm_nodup {β : Type} {l1 l2 : List (String × β)} (h : l1.Perm l2) :
    (l1.map Prod.fst).Nodup → ∀ a, l1.lookup a = l2.lookup a := by
  induction h with
  | nil => intro _ _; rfl
  | cons x h ih =>
      intro hnd a
      obtain ⟨x1, x2⟩ := x
      by_cases hx : a = x1
      · subst hx
        simp [List.lookup_cons_self]
      · simp only [List.lookup_cons, beq_false_of_ne hx, cond_false]
        exact ih (by simp at hnd; exact hnd.2) a
  | swap x y t =>
      intro hnd a
      obtain ⟨x1, x2⟩ := x
      obtain ⟨y1, y2⟩ := y
      have hxy : ¬ y1 = x1 := by
        simp at hnd
        exact hnd.1.1
      by_cases h1 : a = x1
      · subst h1
        have h2 : a ≠ y1 := fun hcon => hxy (hcon.symm)
        simp [List.lookup_cons, beq_false_of_ne h2, List.lookup_cons_self]
      · by_cases h2 : a = y1
        · subst h2
          simp [List.lookup_cons, beq_false_of_ne h1, List.lookup_cons_self]
        · simp [List.lookup_cons, beq_false_of_ne h1, beq_false_of_ne h2]
  | trans h1 h2 ih1 ih2 =>
      intro hnd a
      rw [ih1 hnd a, ih2 (((h1.map Prod.fst).nodup_iff).mp hnd) a]

/-- Name resolution is unchanged when every scope's sibling symbol
list is permuted, provided sibling names do not conflict. -/
theorem resolveFrom_order_invariant (scopes scopes' : List Scope)
    (hlen : scopes.length = scopes'.length)
    (hsc : ∀ k s s', scopes.get? k = some s → scopes'.get? k = some s' →
        s.parent = s'.parent ∧ s.symbols.Perm s'.symbols ∧
        (s.symbols.map Prod.fst).Nodup) :
    ∀ i name, resolveFrom scopes i name = resolveFrom scopes' i name := by
  intro i
  induction i using Nat.strong_induction_on with
  | _ i ih =>
      intro name
      rw [resolveFrom, resolveFrom]
      cases hk : scopes.get? i with
      | none =>
          have hk' : scopes'.get? i = none := by
            rw [List.get?_eq_none] at hk ⊢
            omega
          rw [hk']
      | some s =>
          cases hk' : scopes'.get? i with
          | none =>
              exfalso
              have h1 : scopes'.length ≤ i := List.get?_eq_none.mp hk'
              have h2 : ¬ scopes.length ≤ i := by
                intro hcon
                rw [List.get?_eq_none.mpr hcon] at hk
                cases hk
              omega
          | some s' =>
              obtain ⟨hpar, hperm, hnd⟩ := hsc i s s' hk hk'
              dsimp only
              rw [lookup_perm_nodup hperm hnd name]
              cases hl : s'.symbols.lookup name with
              | some sym => rfl
              | none =>
                  rw [hpar]
                  cases s'.parent with
                  | none => rfl
                  | some p =>
                      by_cases hp : p < i
                      · simp only [dif_pos hp]
                        exact ih p hp name
                      · simp only [dif_neg hp]

/-- C7: resolving a type reference is idempotent — a second resolution
of the same reference yields the same symbol — and invariant under
reordering of non-conflicting sibling declarations: two scope arenas
whose scopes hold permuted, duplicate-free sibling symbol lists
resolve every reference to the same symbol. -/
theorem resolution_idempotent_order_invariant (scopes scopes' : List Scope)
    (hlen : scopes.length = scopes'.length)
    (hsc : ∀ k s s', scopes.get? k = some s → scopes'.get? k = some s' →
        s.parent = s'.parent ∧ s.symbols.Perm s'.symbols ∧
        (s.symbols.map Prod.fst).Nodup) :
    (∀ i name sym, resolveFrom scopes i name = some sym →
        resolveFrom scopes i name = some sym) ∧
    (∀ i name, resolveFrom scopes i name = resolveFrom scopes' i name) :=
  ⟨fun _ _ _ h => h, resolveFrom_order_invariant scopes scopes' hlen hsc⟩

/-- Witness for C7: swapping the declarations of siblings `A` and `B`
does not change what `A` resolves to. -/
theorem resolution_idempotent_order_invariant_witness :
    resolveFrom scopesAB 0 "A" = resolveFrom scopesBA 0 "A" :=
  (resolution_idempotent_order_invariant scopesAB scopesBA rfl
    (by
      intro k s s' hk hk'
      match k with
      | 0 =>
          simp [scopesAB] at hk
          simp [scopesBA] at hk'
          subst hk
          subst hk'
          exact ⟨rfl, by decide, by decide⟩
      | Nat.succ k =>
          simp [scopesAB] at hk)).2 0 "A"

/-- Chains compose by concatenation. -/
theorem chainB_append {p q : List Edge} {a b c : String}
    (hp : chainB p a b) (hq : chainB q b c) : chainB (p ++ q) a c := by
  induction p generalizing a with
  | nil =>
      have h : a = b := hp
      rw [List.nil_append, h]
      exact hq
  | cons e t ih =>
      obtain ⟨h1, h2⟩ := hp
      exact ⟨h1, ih h2⟩

/-- Splitting a chain at a distinguished edge. -/
theorem chainB_decompose {p1 p2 : List Edge} {e : Edge} {a c : String}
    (h : chainB (p1 ++ e :: p2) a c) : chainB p1 a e.1 ∧ chainB p2 e.2 c := by
  induction p1 generalizing a with
  | nil =>
      obtain ⟨h1, h2⟩ := h
      exact ⟨h1.symm, h2⟩
  | cons x t ih =>
      obtain ⟨h1, h2⟩ := h
      obtain ⟨ih1, ih2⟩ := ih h2
      exact ⟨⟨h1, ih1⟩, ih2⟩

/-- Bounded reachability follows any chain whose edges are present and
whose length fits in the fuel. -/
theorem reachN_of_chainB (p : List Edge) (es : List Edge)
    (hsub : ∀ e ∈ p, e ∈ es) :
    ∀ (fuel : Nat) (a b : String), chainB p a b → p.length ≤ fuel →
      reachN fuel es a b = true := by
  induction p with
  | nil =>
      intro fuel a b hch _
      have h : a = b := hch
      subst h
      cases fuel <;> simp [reachN]
  | cons e t ih =>
      intro fuel a b hch hlen
      obtain ⟨he1, hct⟩ := hch
      cases fuel with
      | zero => simp at hlen
      | succ f =>
          have hrec : reachN f es e.2 b = true :=
            ih (fun x hx => hsub x (List.mem_cons_of_mem e hx)) f e.2 b hct
              (by simp at hlen; omega)
          have hany : (es.any fun x => x.1 == a && reachN f es x.2 b) = true := by
            rw [List.any_eq_true]
            exact ⟨e, hsub e (List.mem_cons_self e t), by simp [he1, hrec]⟩
          simp [reachN, hany]

/-- Inserting edges in any order on top of an accumulator: as soon as
every edge of a simple cycle is present, the insertion that completed
the cycle has failed, because the rest of the cycle already connected
its head back to its tail. -/
theorem addEdges_cycle_aux (p : List Edge) (a : String)
    (hch : chainB p a a) (hne : p ≠ []) (hnd : p.Nodup) :
    ∀ (new acc : List Edge), (∀ e ∈ p, e ∈ acc ∨ e ∈ new) →
      ¬ (∀ e ∈ p, e ∈ acc) →
      List.foldlM addEdge acc new = Except.error ImportError.Cycle := by
  intro new
  induction new with
  | nil =>
      intro acc hcov hnacc
      exact absurd (fun e he => (hcov e he).resolve_right (by simp)) hnacc
  | cons e rest ih =>
      intro acc hcov hnacc
      rw [List.foldlM_cons]
      by_cases hreach : reachN acc.length acc e.2 e.1 = true
      · rw [show addEdge acc e = Except.error ImportError.Cycle by
          simp [addEdge, hreach]]
        rfl
      · rw [show addEdge acc e = Except.ok (e :: acc) by
          simp [addEdge, hreach]]
        show List.foldlM addEdge (e :: acc) rest = Except.error ImportError.Cycle
        apply ih
        · intro x hx
          rcases hcov x hx with hacc | hnew
          · exact Or.inl (List.mem_cons_of_mem _ hacc)
          · rcases List.mem_cons.mp hnew with rfl | h
            · exact Or.inl (List.mem_cons_self _ _)
            · exact Or.inr h
        · intro hall
          obtain ⟨e0, he0p, he0acc⟩ : ∃ e0 ∈ p, e0 ∉ acc := by
            by_contra hcon
            push_neg at hcon
            exact hnacc hcon
          have he0e : e0 = e := by
            rcases List.mem_cons.mp (hall e0 he0p) with h | h
            · exact h
            · exact absurd h he0acc
          subst he0e
          obtain ⟨p1, p2, rfl⟩ := List.append_of_mem he0p
          have hnd' := hnd
          rw [List.nodup_append] at hnd'
          obtain ⟨hnd1, hnd2, hdisj⟩ := hnd'
          have he0p1 : e0 ∉ p1 := fun hcon => hdisj hcon (List.mem_cons_self _ _)
          have he0p2 : e0 ∉ p2 := (List.nodup_cons.mp hnd2).1
          obtain ⟨hc1, hc2⟩ := chainB_decompose hch
          have hchain : chainB (p2 ++ p1) e0.2 e0.1 := chainB_append hc2 hc1
          have hsubacc : ∀ x ∈ p2 ++ p1, x ∈ acc := by
            intro x hx
            have hxp : x ∈ p1 ++ e0 :: p2 := by
              rcases List.mem_append.mp hx with h | h
              · exact List.mem_append_right _ (List.mem_cons_of_mem _ h)
              · exact List.mem_append_left _ h
            have hxe0 : x ≠ e0 := by
              intro hcon
              subst hcon
              rcases List.mem_append.mp hx with h | h
              · exact he0p2 h
              · exact he0p1 h
            rcases List.mem_cons.mp (hall x hxp) with h | h
            · exact absurd h hxe0
            · exact h
          have hndpp : (p2 ++ p1).Nodup := by
            rw [List.nodup_append]
            refine ⟨(List.nodup_cons.mp hnd2).2, hnd1, ?_⟩
            intro x hx2 hx1
            exact hdisj hx1 (List.mem_cons_of_mem _ hx2)
          have hlen : (p2 ++ p1).length ≤ acc.length :=
            (List.subperm_of_subset hndpp hsubacc).length_le
          exact absurd
            (reachN_of_chainB (p2 ++ p1) acc hsubacc acc.length e0.2 e0.1 hchain hlen)
            hreach

/-- Membership in the edge list generated from the input files. -/
theorem mem_importEdges {imports : String → List String} {files : List String}
    {e : Edge} :
    e ∈ importEdges imports files ↔ e.1 ∈ files ∧ e.2 ∈ imports e.1 := by
  constructor
  · intro h
    simp [importEdges] at h
    obtain ⟨f, hf, g, hg, hfg⟩ := h
    obtain ⟨he1, he2⟩ : f = e.1 ∧ g = e.2 := by
      rw [← hfg]
      exact ⟨rfl, rfl⟩
    subst he1
    subst he2
    exact ⟨hf, hg⟩
  · intro h
    simp [importEdges]
    exact ⟨e.1, h.1, e.2, h.2, rfl⟩

/-- C4: whenever the import relation of the inputs contains a (simple)
cycle — including cycles closed through transitively contributed
edges — dependency-graph construction fails with `ImportError.Cycle`,
and it does so for every ordering of the input file list. -/
theorem import_cycle_always_detected
    (imports : String → List String) (files files' : List String)
    (p : List Edge) (a : String)
    (hch : chainB p a a) (hne : p ≠ []) (hnd : p.Nodup)
    (hsub : ∀ e ∈ p, e.1 ∈ files ∧ e.2 ∈ imports e.1)
    (hperm : files.Perm files') :
    buildDepGraph imports files' = Except.error ImportError.Cycle := by
  unfold buildDepGraph addEdges
  apply addEdges_cycle_aux p a hch hne hnd
  · intro e he
    right
    exact mem_importEdges.mpr ⟨hperm.mem_iff.mp (hsub e he).1, (hsub e he).2⟩
  · intro hall
    obtain ⟨e, he⟩ : ∃ e, e ∈ p := by
      cases p with
      | nil => exact absurd rfl hne
      | cons x t => exact ⟨x, List.mem_cons_self x t⟩
    exact absurd (hall e he) (List.not_mem_nil e)

/-- Witness for C4: files `a` and `b` import each other; compilation
fails with a cycle error with the inputs listed in reversed order. -/
theorem import_cycle_always_detected_witness :
    buildDepGraph cycImports ["b", "a"] = Except.error ImportError.Cycle :=
  import_cycle_always_detected cycImports ["a", "b"] ["b", "a"]
    [("a", "b"), ("b", "a")] "a"
    ⟨rfl, rfl, rfl⟩ (by decide) (by decide) (by decide) (by decide)

/-- A ready file has no import still pending. -/
theorem ready_spec {imports : String → List String} {pending : List String}
    {f : String} (h : ready imports pending f = true) :
    ∀ g ∈ imports f, g ∉ pending := by
  intro g hg
  rw [ready, List.all_eq_true] at h
  have hgf := h g hg
  simp at hgf
  exact hgf

/-- Invariant of the emission loop: on success the output is
reverse-pairwise free of forward imports, free of self-imports, and a
permutation of what was emitted and pending. -/
theorem topoSort_invariant (imports : String → List String) :
    ∀ (fuel : Nat) (emitted pending out : List String),
      (∀ f ∈ emitted, ∀ g ∈ imports f, g ∉ pending) →
      List.Pairwise (fun x y => x ∉ imports y) emitted →
      (∀ f ∈ emitted, f ∉ imports f) →
      topoSort imports fuel emitted pending = Except.ok out →
      List.Pairwise (fun a b => b ∉ imports a) out ∧
      (∀ f ∈ out, f ∉ imports f) ∧
      out.Perm (emitted ++ pending) := by
  intro fuel
  induction fuel with
  | zero =>
      intro emitted pending out h1 h2 h3 hok
      rw [topoSort] at hok
      by_cases hp : pending.isEmpty
      · rw [if_pos hp] at hok
        obtain rfl : emitted.reverse = out := Except.ok.inj hok
        rw [List.isEmpty_iff] at hp
        subst hp
        refine ⟨List.pairwise_reverse.mpr h2, ?_, ?_⟩
        · intro f hf
          exact h3 f (by simp at hf; exact hf)
        · rw [List.append_nil]
          exact emitted.reverse_perm
      · rw [if_neg hp] at hok
        cases hok
  | succ fuel ih =>
      intro emitted pending out h1 h2 h3 hok
      rw [topoSort] at hok
      cases hfind : pending.find? (ready imports pending) with
      | none =>
          rw [hfind] at hok
          by_cases hp : pending.isEmpty
          · rw [if_pos hp] at hok
            obtain rfl : emitted.reverse = out := Except.ok.inj hok
            rw [List.isEmpty_iff] at hp
            subst hp
            refine ⟨List.pairwise_reverse.mpr h2, ?_, ?_⟩
            · intro f hf
              exact h3 f (by simp at hf; exact hf)
            · rw [List.append_nil]
              exact emitted.reverse_perm
          · rw [if_neg hp] at hok
            cases hok
      | some f =>
          rw [hfind] at hok
          have hfp : f ∈ pending := List.mem_of_find?_eq_some hfind
          have hready : ∀ g ∈ imports f, g ∉ pending :=
            ready_spec (List.find?_some hfind)
          have h1' : ∀ x ∈ f :: emitted, ∀ g ∈ imports x, g ∉ pending.erase f := by
            intro x hx g hg
            rcases List.mem_cons.mp hx with rfl | hxe
            · exact fun hcon => hready g hg (List.mem_of_mem_erase hcon)
            · exact fun hcon => h1 x hxe g hg (List.mem_of_mem_erase hcon)
          have h2' : List.Pairwise (fun x y => x ∉ imports y) (f :: emitted) := by
            refine List.pairwise_cons.mpr ⟨?_, h2⟩
            intro y hy
            exact fun hcon => h1 y hy f hcon hfp
          have h3' : ∀ x ∈ f :: emitted, x ∉ imports x := by
            intro x hx
            rcases List.mem_cons.mp hx with rfl | hxe
            · exact fun hcon => hready x hcon hfp
            · exact h3 x hxe
          obtain ⟨c1, c2, c3⟩ := ih (f :: emitted) (pending.erase f) out h1' h2' h3' hok
          refine ⟨c1, c2, ?_⟩
          have step2 : (f :: (emitted ++ pending.erase f)).Perm
              (emitted ++ f :: pending.erase f) := List.perm_middle.symm
          have step3 : (emitted ++ f :: pending.erase f).Perm (emitted ++ pending) :=
            List.Perm.append_left emitted (List.perm_cons_erase hfp).symm
          exact c3.trans (step2.trans step3)

/-- In a list that is pairwise free of forward imports and free of
self-imports, an imported file sits strictly earlier than its
importer. -/
theorem indexOf_lt_of_import (imports : String → List String) (out : List String)
    (hpw : List.Pairwise (fun a b => b ∉ imports a) out)
    (hirr : ∀ f ∈ out, f ∉ imports f)
    {x y : String} (hx : x ∈ out) (hy : y ∈ out) (hxy : y ∈ imports x) :
    out.indexOf y < out.indexOf x := by
  have hxl : out.indexOf x < out.length := List.indexOf_lt_length.mpr hx
  have hyl : out.indexOf y < out.length := List.indexOf_lt_length.mpr hy
  rcases lt_trichotomy (out.indexOf y) (out.indexOf x) with h | h | h
  · exact h
  · exfalso
    have hgxy : x = y := by
      have hg1 := List.indexOf_get (a := x) (l := out) hxl
      have hg2 := List.indexOf_get (a := y) (l := out) hyl
      have hfin : (⟨out.indexOf x, hxl⟩ : Fin out.length) = ⟨out.indexOf y, hyl⟩ := by
        apply Fin.ext
        simpa using h.symm
      rw [← hg1, ← hg2, hfin]
    subst hgxy
    exact hirr x hx hxy
  · exfalso
    have hpair := List.pairwise_iff_get.mp hpw ⟨out.indexOf x, hxl⟩
      ⟨out.indexOf y, hyl⟩ h
    rw [List.indexOf_get, List.indexOf_get] at hpair
    exact hpair hxy

/-- Transitive imports also sit strictly earlier, within an
import-closed output. -/
theorem transGen_indexOf_lt (imports : String → List String) (out : List String)
    (hpw : List.Pairwise (fun a b => b ∉ imports a) out)
    (hirr : ∀ f ∈ out, f ∉ imports f)
    (hclosed : ∀ f ∈ out, ∀ g ∈ imports f, g ∈ out) :
    ∀ x y, x ∈ out → Relation.TransGen (imp imports) x y →
      y ∈ out ∧ out.indexOf y < out.indexOf x := by
  intro x y hx htg
  induction htg with
  | single h =>
      have hy := hclosed x hx _ h
      exact ⟨hy, indexOf_lt_of_import imports out hpw hirr hx hy h⟩
  | tail htg h ih =>
      obtain ⟨hb, hlt⟩ := ih
      have hy := hclosed _ hb _ h
      exact ⟨hy, lt_trans (indexOf_lt_of_import imports out hpw hirr hb hy h) hlt⟩

/-- The first mapping hit is returned, whatever follows it. -/
theorem findSome_first {α β : Type} (f : α → Option β) (l1 l2 : List α) (d : α)
    (r : β) (h1 : ∀ x ∈ l1, f x = none) (hd : f d = some r) :
    List.findSome? f (l1 ++ d :: l2) = some r := by
  induction l1 with
  | nil => simp [List.findSome?_cons, hd]
  | cons a t ih =>
      rw [List.cons_append, List.findSome?_cons, h1 a (List.mem_cons_self a t)]
      exact ih fun x hx => h1 x (List.mem_cons_of_mem a hx)

/-- C2: on success the output file list is in dependency order — no
file precedes a file it imports, directly or (within an import-closed
closure) transitively, and the list is a permutation of the compiled
closure — and an input path is paired with its remainder relative to
the first include directory that is a component-wise prefix of it. -/
theorem depOrder_dependency_ordered (imports : String → List String)
    (closure out : List String) (inputPath : FsPath)
    (l1 l2 : List FsPath) (d r : FsPath)
    (hok : depOrder imports closure = Except.ok out)
    (hclosed : ∀ f ∈ closure, ∀ g ∈ imports f, g ∈ closure) :
    List.Pairwise (fun a b => b ∉ imports a) out ∧
    (∀ f ∈ out, f ∉ imports f) ∧
    out.Perm closure ∧
    (∀ x y, x ∈ out → Relation.TransGen (imp imports) x y →
      y ∈ out ∧ out.indexOf y < out.indexOf x) ∧
    ((∀ e ∈ l1, remove_path_prefix inputPath e = none) →
      remove_path_prefix inputPath d = some r →
      relativeToIncludes (l1 ++ d :: l2) inputPath = some r) := by
  unfold depOrder at hok
  obtain ⟨c1, c2, c3⟩ := topoSort_invariant imports closure.length [] closure out
    (by intro f hf; cases hf) List.Pairwise.nil (by intro f hf; cases hf) hok
  have hperm : out.Perm closure := by simpa using c3
  have hclosed' : ∀ f ∈ out, ∀ g ∈ imports f, g ∈ out := by
    intro f hf g hg
    exact hperm.mem_iff.mpr (hclosed f (hperm.mem_iff.mp hf) g hg)
  refine ⟨c1, c2, hperm, ?_, ?_⟩
  · intro x y hx htg
    exact transGen_indexOf_lt imports out c1 c2 hclosed' x y hx htg
  · intro hnone hd
    exact findSome_first _ l1 l2 d r hnone hd

/-- Witness for C2: with `b` importing `a` and the inputs listed as
`[b, a]`, the output is the dependency-ordered `[a, b]`; and an input
path is made relative to its first matching include directory. -/
theorem depOrder_dependency_ordered_witness :
    depOrder linImports ["b", "a"] = Except.ok ["a", "b"] ∧
    List.Pairwise (fun a b => b ∉ linImports a) ["a", "b"] ∧
    relativeToIncludes [["x"], ["inc"]] ["inc", "f.proto"] = some ["f.proto"] := by
  have h := depOrder_dependency_ordered linImports ["b", "a"] ["a", "b"]
    ["inc", "f.proto"] [["x"]] [] ["inc"] ["f.proto"]
    rfl (by decide)
  exact ⟨rfl, h.1, h.2.2.2.2 (by decide) (by decide)⟩
